import Mathlib

set_option maxHeartbeats 1000000

namespace Webotron

/-- Byte strings are modelled as lists of natural numbers below 256. -/
abbrev Bytes := List Nat

/-- Reading a file in chunks of `c` bytes, as the `while True: data = f.read(CHUNK_SIZE)`
loop of `BucketManager.gen_etag` does: each iteration takes the next `c` bytes and the
loop breaks on an empty read (also when `c = 0`, since `read(0)` returns no bytes).
The first argument is fuel bounding the number of iterations, keeping the recursion
structural; `chunkList` instantiates it with the input length, which always suffices. -/
def chunkAux : Nat → Nat → Bytes → List Bytes
  | _, _, [] => []
  | 0, _, _ => []
  | fuel + 1, c, l => if c = 0 then [] else l.take c :: chunkAux fuel c (l.drop c)

/-- The list of successive `c`-byte chunks of `l`. -/
def chunkList (c : Nat) (l : Bytes) : List Bytes := chunkAux l.length c l

/-! ### The MD5 digest (the `hashlib.md5` collaborator used by `hash_data`),
implemented from RFC 1321 over byte lists, with 32-bit words as naturals
reduced modulo `2 ^ 32`. -/

def M32 : Nat := 4294967296

def rotl32 (x s : Nat) : Nat := ((x <<< s) % M32) ||| (x >>> (32 - s))

def md5K : List Nat := [
  0xd76aa478, 0xe8c7b756, 0x242070db, 0xc1bdceee,
  0xf57c0faf, 0x4787c62a, 0xa8304613, 0xfd469501,
  0x698098d8, 0x8b44f7af, 0xffff5bb1, 0x895cd7be,
  0x6b901122, 0xfd987193, 0xa679438e, 0x49b40821,
  0xf61e2562, 0xc040b340, 0x265e5a51, 0xe9b6c7aa,
  0xd62f105d, 0x02441453, 0xd8a1e681, 0xe7d3fbc8,
  0x21e1cde6, 0xc33707d6, 0xf4d50d87, 0x455a14ed,
  0xa9e3e905, 0xfcefa3f8, 0x676f02d9, 0x8d2a4c8a,
  0xfffa3942, 0x8771f681, 0x6d9d6122, 0xfde5380c,
  0xa4beea44, 0x4bdecfa9, 0xf6bb4b60, 0xbebfbc70,
  0x289b7ec6, 0xeaa127fa, 0xd4ef3085, 0x04881d05,
  0xd9d4d039, 0xe6db99e5, 0x1fa27cf8, 0xc4ac5665,
  0xf4292244, 0x432aff97, 0xab9423a7, 0xfc93a039,
  0x655b59c3, 0x8f0ccc92, 0xffeff47d, 0x85845dd1,
  0x6fa87e4f, 0xfe2ce6e0, 0xa3014314, 0x4e0811a1,
  0xf7537e82, 0xbd3af235, 0x2ad7d2bb, 0xeb86d391]

def md5S : List Nat := [
  7, 12, 17, 22, 7, 12, 17, 22, 7, 12, 17, 22, 7, 12, 17, 22,
  5, 9, 14, 20, 5, 9, 14, 20, 5, 9, 14, 20, 5, 9, 14, 20,
  4, 11, 16, 23, 4, 11, 16, 23, 4, 11, 16, 23, 4, 11, 16, 23,
  6, 10, 15, 21, 6, 10, 15, 21, 6, 10, 15, 21, 6, 10, 15, 21]

def md5F (i b c d : Nat) : Nat :=
  if i < 16 then (b &&& c) ||| ((0xffffffff ^^^ b) &&& d)
  else if i < 32 then (d &&& b) ||| ((0xffffffff ^^^ d) &&& c)
  else if i < 48 then b ^^^ c ^^^ d
  else c ^^^ (b ||| (0xffffffff ^^^ d))

def md5G (i : Nat) : Nat :=
  if i < 16 then i
  else if i < 32 then (5 * i + 1) % 16
  else if i < 48 then (3 * i + 5) % 16
  else (7 * i) % 16

/-- `n` bytes of `v`, little endian. -/
def toLE : Nat → Nat → Bytes
  | 0, _ => []
  | n + 1, v => v % 256 :: toLE n (v / 256)

/-- Little-endian bytes to a natural number. -/
def fromLE : Bytes → Nat
  | [] => 0
  | b :: bs => b + 256 * fromLE bs

def md5Pad (msg : Bytes) : Bytes :=
  msg ++ 128 :: List.replicate ((119 - msg.length % 64) % 64) 0 ++ toLE 8 (msg.length * 8)

def blockWords (block : Bytes) : List Nat :=
  (List.range 16).map fun i => fromLE ((block.drop (4 * i)).take 4)

def md5Step (w : List Nat) (st : Nat × Nat × Nat × Nat) (i : Nat) : Nat × Nat × Nat × Nat :=
  match st with
  | (a, b, c, d) =>
    let f := (md5F i b c d + a + md5K.getD i 0 + w.getD (md5G i) 0) % M32
    (d, (b + rotl32 f (md5S.getD i 0)) % M32, b, c)

def md5Block (st : Nat × Nat × Nat × Nat) (block : Bytes) : Nat × Nat × Nat × Nat :=
  match st, (List.range 64).foldl (md5Step (blockWords block)) st with
  | (a0, b0, c0, d0), (a, b, c, d) =>
    ((a0 + a) % M32, (b0 + b) % M32, (c0 + c) % M32, (d0 + d) % M32)

/-- The MD5 digest (16 bytes) of a byte string. -/
def md5 (msg : Bytes) : Bytes :=
  match (chunkList 64 (md5Pad msg)).foldl md5Block
      (0x67452301, 0xefcdab89, 0x98badcfe, 0x10325476) with
  | (a, b, c, d) => toLE 4 a ++ toLE 4 b ++ toLE 4 c ++ toLE 4 d

/-- Embeds `BucketManager.hash_data`: the (binary) md5 digest of `data`. -/
def hash_data (data : Bytes) : Bytes := md5 data

def hexChar (n : Nat) : Char := if n < 10 then Char.ofNat (48 + n) else Char.ofNat (87 + n)

/-- Lowercase hex rendering of a digest, as Python's `hexdigest()`. -/
def hexdigest (digest : Bytes) : String :=
  String.mk (digest.foldr (fun b acc => hexChar (b / 16) :: hexChar (b % 16) :: acc) [])

/-- Embeds `BucketManager.gen_etag` (bucket.py lines 143-184). The file at `path`
is replaced by its byte content: the loop reads the file in `chunkSize`-byte
chunks and md5-hashes each chunk; zero chunks give no etag (`None`), one chunk
gives the quoted hex digest of that chunk, and several chunks give the quoted hex
digest of the `reduce`-concatenation of the binary chunk digests, a `-`, and the
chunk count. -/
def gen_etag (chunkSize : Nat) (content : Bytes) : Option String :=
  match (chunkList chunkSize content).map hash_data with
  | [] => none
  | [h] => some ("\"" ++ hexdigest h ++ "\"")
  | h :: hs =>
    some ("\"" ++ hexdigest (hash_data (hs.foldl (fun x y => x ++ y) h)) ++ "-" ++
      toString (h :: hs).length ++ "\"")

/-- Embeds the class constant `BucketManager.CHUNK_SIZE`. -/
def CHUNK_SIZE : Nat := 8388608

/-! ### The sync engine.

The two leaf collaborators the spec names as external — the Object Store Client
and the Filesystem Walker — enter the model as data:

* a bucket is the map `key → stored byte content` (`String → Option Bytes`);
  an upload updates it at one key;
* the walker's yield is the list of `(relative key, content)` pairs it produces
  in traversal order, where `none` as content models an unreadable file (Python
  `open`/`read` raising `OSError`); an invalid sync root — nonexistent or not a
  directory, where `Path.iterdir` raises — is modelled as the whole walk being
  absent;
* `mimetypes.guess_type` is a parameter `guess : String → Option String`.

A manifest (Python dict) is a map `String → Option String`. -/

/-- Observable effects of a sync run, in order: the bucket listing made by
`load_manifest`, and one action per processed file (the `upload_file` transfer,
or the skip decision). -/
inductive Action where
  | listBucket : Action
  | uploaded : String → String → Action
  | skipped : String → Action
  deriving DecidableEq, Repr

/-- A raised Python `OSError` (file or directory access failure). -/
inductive PyErr where
  | osError : PyErr
  deriving DecidableEq, Repr

instance {ε α : Type} [DecidableEq ε] [DecidableEq α] : DecidableEq (Except ε α)
  | .ok a, .ok b =>
    if h : a = b then .isTrue (by rw [h]) else .isFalse fun hc => h (Except.ok.inj hc)
  | .ok _, .error _ => .isFalse fun hc => Except.noConfusion hc
  | .error _, .ok _ => .isFalse fun hc => Except.noConfusion hc
  | .error e, .error f =>
    if h : e = f then .isTrue (by rw [h]) else .isFalse fun hc => h (Except.error.inj hc)

/-- Embeds the Python comparison `self.manifest.get(key, '') == etag` of
`upload_file`: the stored string is compared to the `gen_etag` result, which may
be `None`; in Python `str == None` is `False`. -/
def etag_equals (stored : String) (etag : Option String) : Bool :=
  match etag with
  | some s => stored == s
  | none => false

/-- A bucket after `bucket.upload_file(path, key, ...)` stored the file's bytes
at `key`. -/
def bucket_update (bucket : String → Option Bytes) (key : String) (data : Bytes) :
    String → Option Bytes :=
  fun k => if k = key then some data else bucket k

/-- Embeds the `content_type = mimetypes.guess_type(key)[0] or 'text/plain'` line
of `upload_file`; Python `or` falls through on the falsy values `None` and `''`. -/
def guess_or_plain (guess : String → Option String) (key : String) : String :=
  match guess key with
  | some t => if t = "" then "text/plain" else t
  | none => "text/plain"

/-- Embeds `BucketManager.upload_file` (bucket.py lines 186-209): guess the
content type from the key, compute the local etag (raising if the file is
unreadable), skip when it equals the manifest entry (defaulting to `''`), and
otherwise upload. Returns the bucket after the call and the action taken. -/
def upload_file (guess : String → Option String) (chunkSize : Nat)
    (manifest : String → Option String) (bucket : String → Option Bytes)
    (content : Option Bytes) (key : String) :
    Except PyErr ((String → Option Bytes) × Action) :=
  let content_type := guess_or_plain guess key
  match content with
  | none => .error .osError
  | some data =>
    let etag := gen_etag chunkSize data
    if etag_equals ((manifest key).getD "") etag then
      .ok (bucket, .skipped key)
    else
      .ok (bucket_update bucket key data, .uploaded key content_type)

/-- The ETag the object store reports for a stored object. Modelled from the
spec: the store fingerprints stored bytes with the same chunked scheme
(comparability invariant of spec section 3), except that an empty object still
receives an ETag — the quoted md5 of zero bytes — since the store assigns an
ETag to every stored object. -/
def s3Etag (chunkSize : Nat) (data : Bytes) : String :=
  match gen_etag chunkSize data with
  | some s => s
  | none => "\"" ++ hexdigest (md5 []) ++ "\""

/-- Embeds `BucketManager.load_manifest` (bucket.py lines 127-133): for every
object of the bucket listing, set `manifest[key] = ETag` in the existing
manifest dict; keys not in the listing are left as they were. -/
def load_manifest (chunkSize : Nat) (manifest : String → Option String)
    (bucket : String → Option Bytes) : String → Option String :=
  fun key =>
    match bucket key with
    | some data => some (s3Etag chunkSize data)
    | none => manifest key

/-- The per-file loop of `handle_directory` inside `BucketManager.sync`: process
the walker's files in order through `upload_file`, threading the bucket; a raised
error aborts the loop, keeping the actions already performed. -/
def sync_files (guess : String → Option String) (chunkSize : Nat)
    (manifest : String → Option String) :
    (String → Option Bytes) → List (String × Option Bytes) →
    List Action × (String → Option Bytes) × Option PyErr
  | bucket, [] => ([], bucket, none)
  | bucket, (key, content) :: rest =>
    match upload_file guess chunkSize manifest bucket content key with
    | .error e => ([], bucket, some e)
    | .ok (b2, act) =>
      let r := sync_files guess chunkSize manifest b2 rest
      (act :: r.1, r.2.1, r.2.2)

/-- The observable outcome of one `BucketManager.sync` call: the action trace,
the manifest dict and bucket afterwards, and the call's result — a raised error,
or the returned value, where `Option (Nat × Nat)` is the slot in which a
`(uploaded_count, skipped_count)` pair would be returned. -/
structure SyncRun where
  actions : List Action
  manifest : String → Option String
  bucket : String → Option Bytes
  result : Except PyErr (Option (Nat × Nat))

/-- Embeds `BucketManager.sync` (bucket.py lines 211-232): load the manifest
from the bucket listing (a network call made first), then resolve the root —
`Path.resolve()` does not raise for a missing path — and walk it, uploading each
file; `root = none` models a root whose walk fails (`iterdir` raises). The
function body ends without a `return`, so a completed run returns `None`. -/
def sync (guess : String → Option String) (chunkSize : Nat)
    (manifest0 : String → Option String) (bucket0 : String → Option Bytes)
    (root : Option (List (String × Option Bytes))) : SyncRun :=
  let m := load_manifest chunkSize manifest0 bucket0
  match root with
  | none => ⟨[.listBucket], m, bucket0, .error .osError⟩
  | some files =>
    let r := sync_files guess chunkSize m bucket0 files
    ⟨.listBucket :: r.1, m, r.2.1,
      match r.2.2 with
      | some e => .error e
      | none => .ok none⟩

/-- Number of upload actions in a trace. -/
def countUploads (acts : List Action) : Nat :=
  (acts.filter fun a => match a with | .uploaded _ _ => true | _ => false).length

/-- Number of skip actions in a trace. -/
def countSkips (acts : List Action) : Nat :=
  (acts.filter fun a => match a with | .skipped _ => true | _ => false).length

/-- Follows the spec's words (section 4.1 contract), for comparison with the
code: a sync run is to return the aggregate pair
`(uploaded_count, skipped_count)` of its run. -/
def sync_spec_result (acts : List Action) : Option (Nat × Nat) :=
  some (countUploads acts, countSkips acts)

/-! ### Lemmas about the chunked reading loop -/

theorem chunkAux_nil (fuel c : Nat) : chunkAux fuel c [] = [] := by
  cases fuel <;> rfl

theorem chunkAux_eq (c : Nat) (fuel : Nat) : ∀ l : Bytes, l.length ≤ fuel →
    chunkAux fuel c l = chunkAux l.length c l := by
  induction fuel using Nat.strong_induction_on with
  | _ fuel ih =>
    intro l hl
    cases l with
    | nil => rw [chunkAux_nil, chunkAux_nil]
    | cons a t =>
      cases fuel with
      | zero => simp at hl
      | succ f =>
        by_cases hc : c = 0
        · simp [chunkAux, hc]
        · simp only [List.length_cons, chunkAux, if_neg hc]
          congr 1
          have hd : ((a :: t).drop c).length ≤ t.length := by
            simp only [List.length_drop, List.length_cons]
            omega
          have hf : t.length ≤ f := by simpa using hl
          rw [ih f (by omega) _ (le_trans hd hf), ih t.length (by omega) _ hd]

theorem chunkList_nil (c : Nat) : chunkList c [] = [] := rfl

theorem chunkList_cons (c : Nat) (hc : c ≠ 0) (a : Nat) (t : Bytes) :
    chunkList c (a :: t) = (a :: t).take c :: chunkList c ((a :: t).drop c) := by
  show chunkAux (a :: t).length c (a :: t) = _
  simp only [List.length_cons, chunkAux, if_neg hc]
  congr 1
  exact chunkAux_eq c t.length _ (by simp only [List.length_drop, List.length_cons]; omega)

theorem chunkList_eq_map_range (c : Nat) (hc : 0 < c) :
    ∀ l : Bytes, chunkList c l =
      (List.range ((l.length + c - 1) / c)).map fun i => (l.drop (c * i)).take c := by
  have main : ∀ n : Nat, ∀ l : Bytes, l.length = n →
      chunkList c l =
        (List.range ((l.length + c - 1) / c)).map fun i => (l.drop (c * i)).take c := by
    intro n
    induction n using Nat.strong_induction_on with
    | _ n ih =>
      intro l hl
      cases l with
      | nil =>
        rw [chunkList_nil]
        rw [show (List.length ([] : Bytes) + c - 1) / c = 0 from
          Nat.div_eq_of_lt (by simp; omega)]
        rfl
      | cons a t =>
        rcases le_or_lt (a :: t).length c with hle | hgt
        · have h1 : chunkList c (a :: t) = [a :: t] := by
            rw [chunkList_cons c (by omega) a t, List.take_of_length_le hle,
              List.drop_of_length_le hle, chunkList_nil]
          have hk : ((a :: t).length + c - 1) / c = 1 := by
            apply Nat.div_eq_of_lt_le
            · simp only [List.length_cons]; omega
            · simp only [List.length_cons] at hle ⊢; omega
          rw [h1, hk]
          simp [List.range_succ, List.take_of_length_le hle]
        · have h1 := chunkList_cons c (by omega) a t
          have hdl : ((a :: t).drop c).length = (a :: t).length - c := List.length_drop c _
          have hrec := ih ((a :: t).length - c)
            (by simp only [List.length_cons] at hgt hl ⊢; omega) ((a :: t).drop c) hdl
          rw [h1, hrec]
          have hk : ((a :: t).length + c - 1) / c = (((a :: t).drop c).length + c - 1) / c + 1 := by
            rw [hdl]
            have e1 : (a :: t).length + c - 1 = ((a :: t).length - 1) + c := by
              simp only [List.length_cons]; omega
            have e2 : (a :: t).length - c + c - 1 = (a :: t).length - 1 := by
              simp only [List.length_cons] at hgt ⊢; omega
            rw [e1, e2, Nat.add_div_right _ hc]
          have htail : (List.range ((((a :: t).drop c).length + c - 1) / c)).map
              (fun i => (((a :: t).drop c).drop (c * i)).take c) =
            (List.range ((((a :: t).drop c).length + c - 1) / c)).map
              ((fun i => ((a :: t).drop (c * i)).take c) ∘ Nat.succ) := by
            apply List.map_congr_left
            intro i _
            show (((a :: t).drop c).drop (c * i)).take c =
              ((a :: t).drop (c * Nat.succ i)).take c
            rw [List.drop_drop]
            congr 2
            simp only [Nat.succ_eq_add_one]
            ring
          rw [hk, List.range_succ_eq_map, List.map_cons, List.map_map, ← htail]
          congr 1
  intro l
  exact main l.length l rfl

theorem chunkList_length (c : Nat) (hc : 0 < c) (l : Bytes) :
    (chunkList c l).length = (l.length + c - 1) / c := by
  rw [chunkList_eq_map_range c hc]
  simp

theorem foldl_append_eq_flatten (hs : List Bytes) : ∀ a : Bytes,
    hs.foldl (fun x y => x ++ y) a = a ++ hs.flatten := by
  induction hs with
  | nil => intro a; simp
  | cons b t ih => intro a; simp [ih, List.append_assoc]

theorem gen_etag_nil_input (c : Nat) : gen_etag c [] = none := by
  simp [gen_etag, chunkList_nil]

theorem gen_etag_single (c : Nat) (l : Bytes) (h0 : l ≠ []) (hle : l.length ≤ c) :
    gen_etag c l = some ("\"" ++ hexdigest (hash_data l) ++ "\"") := by
  have h1 : chunkList c l = [l] := by
    cases l with
    | nil => exact absurd rfl h0
    | cons a t =>
      have hc : c ≠ 0 := by simp only [List.length_cons] at hle; omega
      rw [chunkList_cons c hc a t, List.take_of_length_le hle,
        List.drop_of_length_le hle, chunkList_nil]
  simp [gen_etag, h1]

theorem gen_etag_multi (c : Nat) (hc : 0 < c) (l : Bytes) (hgt : c < l.length) :
    gen_etag c l = some ("\"" ++
      hexdigest (hash_data ((chunkList c l).map hash_data).flatten) ++ "-" ++
      toString (chunkList c l).length ++ "\"") ∧
    2 ≤ (chunkList c l).length := by
  have hk : 2 ≤ (chunkList c l).length := by
    rw [chunkList_length c hc]
    rw [Nat.le_div_iff_mul_le hc]
    omega
  obtain ⟨x, y, rest, hxy⟩ : ∃ x y rest, chunkList c l = x :: y :: rest := by
    rcases hcl : chunkList c l with _ | ⟨x, _ | ⟨y, rest⟩⟩
    · rw [hcl] at hk; simp at hk
    · rw [hcl] at hk; simp at hk
    · exact ⟨_, _, _, rfl⟩
  refine ⟨?_, hk⟩
  simp only [gen_etag, hxy, List.map_cons]
  rw [foldl_append_eq_flatten]
  simp [List.flatten_cons]

/-- C1: for every byte input and positive chunk size, `gen_etag` returns: `None`
on empty input; the quoted hex md5 of the whole input when it fits in one chunk
(in particular an input of exactly `chunkSize` bytes); and, with two or more
chunks, the quoted hex md5 of the in-order concatenation of the per-chunk binary
digests followed by `-` and the chunk count, where the chunks are the successive
`chunkSize`-byte slices and an input of `chunkSize + 1` bytes has chunk count 2,
hence suffix `-2`. -/
theorem gen_etag_structure (c : Nat) (l : Bytes) (hc : 0 < c) :
    (l = [] → gen_etag c l = none) ∧
    (l ≠ [] → l.length ≤ c → gen_etag c l = some ("\"" ++ hexdigest (hash_data l) ++ "\"")) ∧
    (c < l.length →
      gen_etag c l = some ("\"" ++
        hexdigest (hash_data (((List.range ((l.length + c - 1) / c)).map
          fun i => hash_data ((l.drop (c * i)).take c)).flatten)) ++ "-" ++
        toString ((l.length + c - 1) / c) ++ "\"") ∧
      2 ≤ (l.length + c - 1) / c) ∧
    (l.length = c + 1 → (l.length + c - 1) / c = 2) := by
  refine ⟨fun h => h ▸ gen_etag_nil_input c, fun h0 hle => gen_etag_single c l h0 hle,
    fun hgt => ?_, fun hsucc => ?_⟩
  · obtain ⟨hmul, hk⟩ := gen_etag_multi c hc l hgt
    have hmap : (chunkList c l).map hash_data =
        (List.range ((l.length + c - 1) / c)).map fun i => hash_data ((l.drop (c * i)).take c) := by
      rw [chunkList_eq_map_range c hc, List.map_map]
      rfl
    constructor
    · rw [hmul, hmap, chunkList_length c hc]
    · rw [← chunkList_length c hc]; exact hk
  · have e1 : l.length + c - 1 = 2 * c := by omega
    rw [e1, Nat.mul_div_cancel _ hc]

/-- Witness for C1 at chunk size 2 and the three-byte input `abc`: two chunks,
multi-chunk format with suffix `-2`. -/
theorem gen_etag_structure_witness :
    gen_etag 2 [97, 98, 99] = some ("\"" ++
      hexdigest (hash_data (((List.range (([97, 98, 99].length + 2 - 1) / 2)).map
        fun i => hash_data (([97, 98, 99].drop (2 * i)).take 2)).flatten)) ++ "-" ++
      toString (([97, 98, 99].length + 2 - 1) / 2) ++ "\"") :=
  ((gen_etag_structure 2 [97, 98, 99] (by decide)).2.2.1 (by decide)).1

theorem gen_etag_isSome (c : Nat) (hc : 0 < c) (l : Bytes) (h0 : l ≠ []) :
    ∃ s, gen_etag c l = some s := by
  rcases le_or_lt l.length c with hle | hgt
  · exact ⟨_, gen_etag_single c l h0 hle⟩
  · exact ⟨_, (gen_etag_multi c hc l hgt).1⟩

theorem ne_empty_of_length_pos (s : String) (h : 0 < s.length) : s ≠ "" := by
  intro he
  rw [he] at h
  exact absurd h (by decide)

/-- An etag produced by `gen_etag` is a quoted string, never `''`. -/
theorem gen_etag_ne_empty (c : Nat) (l : Bytes) (s : String) (h : gen_etag c l = some s) :
    s ≠ "" := by
  unfold gen_etag at h
  rcases hm : (chunkList c l).map hash_data with _ | ⟨d1, _ | ⟨d2, ds⟩⟩ <;> rw [hm] at h
  · cases h
  all_goals
    injection h with h'
    rw [← h']
    apply ne_empty_of_length_pos
    simp only [String.length_append]
    have hq : ("\"" : String).length = 1 := rfl
    omega

/-- The two branches `upload_file` takes on a readable file. -/
theorem upload_file_some (guess : String → Option String) (c : Nat)
    (manifest : String → Option String) (bucket : String → Option Bytes)
    (key : String) (data : Bytes) :
    upload_file guess c manifest bucket (some data) key =
      if etag_equals ((manifest key).getD "") (gen_etag c data) then
        .ok (bucket, .skipped key)
      else
        .ok (bucket_update bucket key data, .uploaded key (guess_or_plain guess key)) := rfl

/-- The etag comparison of `upload_file` succeeds exactly when the computed
fingerprint exists and the manifest holds that very string at the key. -/
theorem etag_equals_iff (c : Nat) (manifest : String → Option String)
    (key : String) (data : Bytes) :
    etag_equals ((manifest key).getD "") (gen_etag c data) = true ↔
      ∃ s, gen_etag c data = some s ∧ manifest key = some s := by
  cases hm : gen_etag c data with
  | none => simp [etag_equals]
  | some s =>
    simp only [etag_equals]
    cases hst : manifest key with
    | none =>
      simp only [Option.getD_none, beq_iff_eq]
      constructor
      · intro hb
        exact absurd hb.symm (gen_etag_ne_empty c data s hm)
      · rintro ⟨s', _, hst'⟩
        cases hst'
    | some v =>
      simp only [Option.getD_some, beq_iff_eq]
      constructor
      · intro hv
        exact ⟨s, rfl, by rw [hv]⟩
      · rintro ⟨s', hs', hst'⟩
        injection hs' with h1
        injection hst' with h2
        rw [h2, ← h1]

/-- C2: a processed file is skipped exactly when its computed fingerprint equals
the manifest entry at its relative key; when the fingerprint differs or the key
is absent, the file is uploaded with the content type guessed from its name,
`text/plain` when unrecognized (`mimetypes.guess_type` yields no empty string,
hence the hypothesis on `guess`). -/
theorem upload_file_skip_iff (guess : String → Option String) (c : Nat)
    (manifest : String → Option String) (bucket : String → Option Bytes)
    (key : String) (data : Bytes) (hg : guess key ≠ some "") :
    (upload_file guess c manifest bucket (some data) key = .ok (bucket, .skipped key) ↔
      ∃ s, gen_etag c data = some s ∧ manifest key = some s) ∧
    ((¬ ∃ s, gen_etag c data = some s ∧ manifest key = some s) →
      upload_file guess c manifest bucket (some data) key =
        .ok (bucket_update bucket key data,
          .uploaded key ((guess key).getD "text/plain"))) := by
  have hct : guess_or_plain guess key = (guess key).getD "text/plain" := by
    unfold guess_or_plain
    cases hgk : guess key with
    | none => rfl
    | some t =>
      have ht : t ≠ "" := by
        intro ht
        rw [ht] at hgk
        exact hg hgk
      show (if t = "" then "text/plain" else t) = (some t).getD "text/plain"
      rw [if_neg ht, Option.getD_some]
  rw [upload_file_some, hct]
  constructor
  · rw [← etag_equals_iff c manifest key data]
    by_cases hb : etag_equals ((manifest key).getD "") (gen_etag c data) = true
    · simp [hb]
    · simp only [hb, Bool.false_eq_true, iff_false]
      simp
  · intro hno
    rw [if_neg]
    intro hb
    exact hno ((etag_equals_iff c manifest key data).mp hb)

/-- Witness for C2: a one-byte file, empty manifest, no recognized type — the
file is uploaded as `text/plain`. -/
theorem upload_file_skip_iff_witness :
    upload_file (fun _ => none) 1 (fun _ => none) (fun _ => none) (some [104]) "a.txt" =
      .ok (bucket_update (fun _ => none) "a.txt" [104], .uploaded "a.txt" "text/plain") :=
  (upload_file_skip_iff (fun _ => none) 1 (fun _ => none) (fun _ => none) "a.txt" [104]
    (by intro h; cases h)).2 (by rintro ⟨s, hs, h⟩; cases h)

/-- C6-amended: when the fingerprint computation fails (unreadable file), the
exception propagates out of `upload_file` — the file is neither uploaded nor
silently skipped; the sync run aborts with the error. -/
theorem upload_file_unreadable_raises (guess : String → Option String) (c : Nat)
    (manifest : String → Option String) (bucket : String → Option Bytes)
    (key : String) :
    upload_file guess c manifest bucket none key = .error .osError := rfl

/-- C6 counterexample: a sync run over one unreadable file raises and performs
no upload, where the claim says the file would be treated as different and
uploaded. -/
theorem upload_unreadable_no_upload_cex :
    (sync (fun _ => none) CHUNK_SIZE (fun _ => none) (fun _ => none)
        (some [("secret.txt", none)])).result = .error .osError ∧
    countUploads (sync (fun _ => none) CHUNK_SIZE (fun _ => none) (fun _ => none)
        (some [("secret.txt", none)])).actions = 0 :=
  ⟨rfl, rfl⟩

/-- C10: a zero-byte file has no fingerprint (`gen_etag` returns `None`), the
comparison against the manifest entry — defaulting to `''` for an absent key —
is false for every stored string, so the file is always uploaded and never
skipped, whatever the manifest holds. -/
theorem empty_file_always_uploaded (guess : String → Option String) (c : Nat)
    (manifest : String → Option String) (bucket : String → Option Bytes)
    (key : String) :
    gen_etag c [] = none ∧
    (∀ stored : String, etag_equals stored (gen_etag c []) = false) ∧
    upload_file guess c manifest bucket (some []) key =
      .ok (bucket_update bucket key [], .uploaded key (guess_or_plain guess key)) :=
  ⟨rfl, fun _ => rfl, rfl⟩

theorem countUploads_cons_upload (k t : String) (l : List Action) :
    countUploads (.uploaded k t :: l) = countUploads l + 1 := rfl

theorem countUploads_cons_skip (k : String) (l : List Action) :
    countUploads (.skipped k :: l) = countUploads l := rfl

theorem countUploads_cons_list (l : List Action) :
    countUploads (.listBucket :: l) = countUploads l := rfl

theorem countSkips_cons_upload (k t : String) (l : List Action) :
    countSkips (.uploaded k t :: l) = countSkips l := rfl

theorem countSkips_cons_skip (k : String) (l : List Action) :
    countSkips (.skipped k :: l) = countSkips l + 1 := rfl

theorem countSkips_cons_list (l : List Action) :
    countSkips (.listBucket :: l) = countSkips l := rfl

/-- A run whose files are all readable completes without error and performs
exactly one action per file. -/
theorem sync_files_total (guess : String → Option String) (c : Nat)
    (m : String → Option String) :
    ∀ (files : List (String × Option Bytes)) (b : String → Option Bytes),
      (∀ f ∈ files, f.2 ≠ none) →
      (sync_files guess c m b files).2.2 = none ∧
      countUploads (sync_files guess c m b files).1 +
        countSkips (sync_files guess c m b files).1 = files.length := by
  intro files
  induction files with
  | nil => exact fun b _ => ⟨rfl, rfl⟩
  | cons f rest ih =>
    intro b hread
    obtain ⟨key, content⟩ := f
    cases content with
    | none => exact absurd rfl (hread (key, none) (by simp))
    | some data =>
      have hrest : ∀ f ∈ rest, f.2 ≠ none := fun f hf => hread f (List.mem_cons_of_mem _ hf)
      show (sync_files guess c m b ((key, some data) :: rest)).2.2 = none ∧ _
      simp only [sync_files, upload_file_some]
      by_cases hb : etag_equals ((m key).getD "") (gen_etag c data) = true
      · rw [if_pos hb]
        obtain ⟨h1, h2⟩ := ih b hrest
        refine ⟨h1, ?_⟩
        simp only [countUploads_cons_skip, countSkips_cons_skip, List.length_cons]
        omega
      · rw [if_neg hb]
        obtain ⟨h1, h2⟩ := ih (bucket_update b key data) hrest
        refine ⟨h1, ?_⟩
        simp only [countUploads_cons_upload, countSkips_cons_upload, List.length_cons]
        omega

/-- C3-amended: a sync run over readable files completes and returns Python
`None` — no `(uploaded_count, skipped_count)` pair is returned; the run's
activity is observable only in the action trace, which holds exactly one
upload-or-skip action per processed file. -/
theorem sync_returns_no_counts (guess : String → Option String) (c : Nat)
    (m0 : String → Option String) (b0 : String → Option Bytes)
    (files : List (String × Option Bytes))
    (hread : ∀ f ∈ files, f.2 ≠ none) :
    (sync guess c m0 b0 (some files)).result = .ok none ∧
    countUploads (sync guess c m0 b0 (some files)).actions +
      countSkips (sync guess c m0 b0 (some files)).actions = files.length := by
  obtain ⟨h1, h2⟩ := sync_files_total guess c (load_manifest c m0 b0) files b0 hread
  constructor
  · simp only [sync, h1]
  · simp only [sync, countUploads_cons_list, countSkips_cons_list]
    exact h2

/-- Witness for C3-amended: one readable file, completed run, `None` result,
one action. -/
theorem sync_returns_no_counts_witness :
    (sync (fun _ => none) CHUNK_SIZE (fun _ => none) (fun _ => none)
        (some [("a.txt", some [])])).result = .ok none ∧
    countUploads (sync (fun _ => none) CHUNK_SIZE (fun _ => none) (fun _ => none)
        (some [("a.txt", some [])])).actions +
      countSkips (sync (fun _ => none) CHUNK_SIZE (fun _ => none) (fun _ => none)
        (some [("a.txt", some [])])).actions = [("a.txt", some ([] : Bytes))].length :=
  sync_returns_no_counts (fun _ => none) CHUNK_SIZE (fun _ => none) (fun _ => none)
    [("a.txt", some [])] (by decide)

/-- C3 counterexample: a completed run that uploads its one file returns `None`,
not the `(uploaded_count, skipped_count) = (1, 0)` pair the claim prescribes. -/
theorem sync_no_counts_cex :
    (sync (fun _ => none) CHUNK_SIZE (fun _ => none) (fun _ => none)
        (some [("b.txt", some [])])).result ≠
      .ok (sync_spec_result (sync (fun _ => none) CHUNK_SIZE (fun _ => none)
        (fun _ => none) (some [("b.txt", some [])])).actions) ∧
    sync_spec_result (sync (fun _ => none) CHUNK_SIZE (fun _ => none) (fun _ => none)
        (some [("b.txt", some [])])).actions = some (1, 0) := by
  constructor <;> decide

/-- C5-amended: with a root whose walk fails (nonexistent or not a directory —
`Path.resolve` itself does not raise), the run still performs the bucket
listing first, then raises the walk's OS error; the trace of the failed run is
exactly the listing call, and the error is not a distinct PathError type. -/
theorem sync_badroot_after_listing (guess : String → Option String) (c : Nat)
    (m0 : String → Option String) (b0 : String → Option Bytes) :
    sync guess c m0 b0 none =
      ⟨[Action.listBucket], load_manifest c m0 b0, b0, .error .osError⟩ := rfl

/-- C5 counterexample: a run with an invalid root fails, yet its trace contains
the bucket listing — the manifest listing network call precedes the rejection,
where the claim says the rejection comes first. -/
theorem sync_badroot_lists_first_cex :
    Action.listBucket ∈ (sync (fun _ => none) CHUNK_SIZE (fun _ => none)
      (fun _ => none) none).actions ∧
    (sync (fun _ => none) CHUNK_SIZE (fun _ => none) (fun _ => none) none).result =
      .error .osError := by
  constructor <;> decide

/-- C7-amended: `load_manifest` merges the bucket listing into the manifest
dict the manager already holds: every listed key maps to the listing's ETag,
and keys absent from the listing keep whatever entry they had — entries from
earlier sync invocations on the same manager persist. -/
theorem load_manifest_merge (c : Nat) (m : String → Option String)
    (b : String → Option Bytes) :
    (∀ k d, b k = some d → load_manifest c m b k = some (s3Etag c d)) ∧
    (∀ k, b k = none → load_manifest c m b k = m k) := by
  constructor
  · intro k d h
    simp [load_manifest, h]
  · intro k h
    simp [load_manifest, h]

/-- Witness for C7-amended: a key absent from the listing keeps its old entry. -/
theorem load_manifest_merge_witness :
    load_manifest CHUNK_SIZE (fun _ => some "\"x\"") (fun _ => none) "old.txt" =
      some "\"x\"" :=
  (load_manifest_merge CHUNK_SIZE (fun _ => some "\"x\"") (fun _ => none)).2 "old.txt" rfl

/-- C7 counterexample: after a first sync against a bucket holding `stale.txt`,
a second sync on the same manager against a bucket without that key still
consults a manifest that contains `stale.txt` — carried over from the earlier
invocation, not rebuilt fresh from the new listing. -/
theorem manifest_carryover_cex :
    (sync (fun _ => none) CHUNK_SIZE
        ((sync (fun _ => none) CHUNK_SIZE (fun _ => none)
            (fun k => if k = "stale.txt" then some [104] else none) (some [])).manifest)
        (fun _ => none) (some [])).manifest "stale.txt" ≠ none ∧
    (fun _ => (none : Option Bytes)) "stale.txt" = none := by
  constructor <;> decide

/-- A run in which every file's etag matches the consulted manifest skips every
file and leaves the bucket untouched. -/
theorem sync_files_all_skip (guess : String → Option String) (c : Nat)
    (m : String → Option String) :
    ∀ (files : List (String × Option Bytes)) (b : String → Option Bytes),
      (∀ p ∈ files, ∃ data, p.2 = some data ∧
        etag_equals ((m p.1).getD "") (gen_etag c data) = true) →
      (sync_files guess c m b files).1 = files.map (fun p => Action.skipped p.1) ∧
      (sync_files guess c m b files).2.1 = b ∧
      (sync_files guess c m b files).2.2 = none := by
  intro files
  induction files with
  | nil => exact fun b _ => ⟨rfl, rfl, rfl⟩
  | cons f rest ih =>
    intro b hmatch
    obtain ⟨key, content⟩ := f
    obtain ⟨data, hdata, hb⟩ := hmatch (key, content) (by simp)
    simp only at hdata
    subst hdata
    have hrest := fun p hp => hmatch p (List.mem_cons_of_mem _ hp)
    obtain ⟨h1, h2, h3⟩ := ih b hrest
    simp only [sync_files, upload_file_some, if_pos hb]
    exact ⟨by rw [h1]; rfl, h2, h3⟩

/-- After a run over readable files with distinct keys: unprocessed keys are
untouched, and each processed file either now stores its local content in the
bucket, or was skipped because its etag matched the consulted manifest, the
bucket being unchanged at its key. -/
theorem sync_files_bucket_char (guess : String → Option String) (c : Nat)
    (m : String → Option String) :
    ∀ (files : List (String × Option Bytes)) (b : String → Option Bytes),
      (∀ p ∈ files, p.2 ≠ none) →
      (files.map Prod.fst).Nodup →
      (∀ k, k ∉ files.map Prod.fst → (sync_files guess c m b files).2.1 k = b k) ∧
      (∀ k data, (k, some data) ∈ files →
        (sync_files guess c m b files).2.1 k = some data ∨
        ((sync_files guess c m b files).2.1 k = b k ∧
          etag_equals ((m k).getD "") (gen_etag c data) = true)) := by
  intro files
  induction files with
  | nil =>
    intro b _ _
    exact ⟨fun _ _ => rfl, fun k data h => absurd h (List.not_mem_nil _)⟩
  | cons f rest ih =>
    intro b hread hnodup
    obtain ⟨key, content⟩ := f
    cases content with
    | none => exact absurd rfl (hread (key, none) (by simp))
    | some data =>
      have hrest : ∀ p ∈ rest, p.2 ≠ none := fun p hp => hread p (List.mem_cons_of_mem _ hp)
      have hkey : key ∉ rest.map Prod.fst := by
        have := hnodup
        simp only [List.map_cons, List.nodup_cons] at this
        exact this.1
      have hnodup' : (rest.map Prod.fst).Nodup := by
        simp only [List.map_cons, List.nodup_cons] at hnodup
        exact hnodup.2
      simp only [sync_files, upload_file_some]
      by_cases hb : etag_equals ((m key).getD "") (gen_etag c data) = true
      · rw [if_pos hb]
        obtain ⟨ih1, ih2⟩ := ih b hrest hnodup'
        constructor
        · intro k hk
          simp only [List.map_cons, List.mem_cons, not_or] at hk
          exact ih1 k hk.2
        · intro k d hkd
          rcases List.mem_cons.mp hkd with heq | ht
          · have hk : k = key := congrArg Prod.fst heq
            have hd : some d = some data := congrArg Prod.snd heq
            injection hd with hd
            rw [hk, hd]
            exact Or.inr ⟨ih1 key hkey, hb⟩
          · exact ih2 k d ht
      · rw [if_neg hb]
        obtain ⟨ih1, ih2⟩ := ih (bucket_update b key data) hrest hnodup'
        constructor
        · intro k hk
          simp only [List.map_cons, List.mem_cons, not_or] at hk
          rw [ih1 k hk.2]
          simp only [bucket_update, if_neg hk.1]
        · intro k d hkd
          rcases List.mem_cons.mp hkd with heq | ht
          · have hk : k = key := congrArg Prod.fst heq
            have hd : some d = some data := congrArg Prod.snd heq
            injection hd with hd
            rw [hk, hd]
            left
            rw [ih1 key hkey]
            simp [bucket_update]
          · rcases ih2 k d ht with h | ⟨h, hmatch⟩
            · exact Or.inl h
            · have hk : k ≠ key := by
                intro he
                subst he
                exact hkey (List.mem_map.mpr ⟨(k, some d), ht, rfl⟩)
              refine Or.inr ⟨?_, hmatch⟩
              rw [h]
              simp only [bucket_update, if_neg hk]

theorem countUploads_map_skipped (files : List (String × Option Bytes)) :
    countUploads (files.map fun p => Action.skipped p.1) = 0 := by
  induction files with
  | nil => rfl
  | cons f t ih => rw [List.map_cons, countUploads_cons_skip]; exact ih

theorem countSkips_map_skipped (files : List (String × Option Bytes)) :
    countSkips (files.map fun p => Action.skipped p.1) = files.length := by
  induction files with
  | nil => rfl
  | cons f t ih => rw [List.map_cons, countSkips_cons_skip, ih]; rfl

/-- C4-amended: sync is idempotent on trees of readable, nonempty files with
distinct relative keys: running sync, changing nothing, and running sync again
on the same manager yields zero uploads on the second run — every file is
skipped. (Zero-byte files break the claim as stated: their fingerprint is the
absent sentinel, which never equals the stored ETag, so they are re-uploaded on
every run — see the counterexample.) -/
theorem sync_idempotent_nonempty (guess : String → Option String) (c : Nat)
    (m0 : String → Option String) (b0 : String → Option Bytes)
    (files : List (String × Option Bytes))
    (hc : 0 < c)
    (hread : ∀ p ∈ files, p.2 ≠ none)
    (hne : ∀ p ∈ files, p.2 ≠ some ([] : Bytes))
    (hnodup : (files.map Prod.fst).Nodup) :
    countUploads (sync guess c (sync guess c m0 b0 (some files)).manifest
      (sync guess c m0 b0 (some files)).bucket (some files)).actions = 0 ∧
    countSkips (sync guess c (sync guess c m0 b0 (some files)).manifest
      (sync guess c m0 b0 (some files)).bucket (some files)).actions = files.length ∧
    (sync guess c (sync guess c m0 b0 (some files)).manifest
      (sync guess c m0 b0 (some files)).bucket (some files)).result = .ok none := by
  have hM : (sync guess c m0 b0 (some files)).manifest = load_manifest c m0 b0 := rfl
  have hB : (sync guess c m0 b0 (some files)).bucket =
      (sync_files guess c (load_manifest c m0 b0) b0 files).2.1 := rfl
  rw [hM, hB]
  have hchar := sync_files_bucket_char guess c (load_manifest c m0 b0) files b0 hread hnodup
  -- every file's etag matches the manifest the second run consults
  have hall : ∀ p ∈ files, ∃ data, p.2 = some data ∧
      etag_equals ((load_manifest c (load_manifest c m0 b0)
          ((sync_files guess c (load_manifest c m0 b0) b0 files).2.1) p.1).getD "")
        (gen_etag c data) = true := by
    intro p hp
    obtain ⟨key, content⟩ := p
    cases content with
    | none => exact absurd rfl (hread (key, none) hp)
    | some data =>
      refine ⟨data, rfl, ?_⟩
      have hdne : data ≠ [] := by
        intro h
        exact hne (key, some data) hp (by rw [h])
      obtain ⟨s, hs⟩ := gen_etag_isSome c hc data hdne
      have hs3 : s3Etag c data = s := by
        simp [s3Etag, hs]
      rcases hchar.2 key data hp with hup | ⟨hsk, hmatch⟩
      · -- uploaded in the first run: the listing reports the local etag
        simp only [load_manifest, hup, hs3, hs, Option.getD_some, etag_equals]
        exact beq_self_eq_true s
      · -- skipped in the first run: the matching entry is still what is consulted
        have hm1k : (load_manifest c m0 b0 key).getD "" = s := by
          rw [hs] at hmatch
          simpa [etag_equals, beq_iff_eq] using hmatch
        cases hb0 : b0 key with
        | some e =>
          have hse : s3Etag c e = s := by
            have h2 := hm1k
            simp only [load_manifest, hb0, Option.getD_some] at h2
            exact h2
          simp only [load_manifest, hsk, hb0, hse, hs, Option.getD_some, etag_equals]
          exact beq_self_eq_true s
        | none =>
          have hm0k : (m0 key).getD "" = s := by
            have h2 := hm1k
            simp only [load_manifest, hb0] at h2
            exact h2
          simp only [load_manifest, hsk, hb0, hs, etag_equals, hm0k]
          exact beq_self_eq_true s
  have hskip := sync_files_all_skip guess c
    (load_manifest c (load_manifest c m0 b0)
      ((sync_files guess c (load_manifest c m0 b0) b0 files).2.1)) files
    ((sync_files guess c (load_manifest c m0 b0) b0 files).2.1) hall
  have hact : (sync guess c (load_manifest c m0 b0)
      ((sync_files guess c (load_manifest c m0 b0) b0 files).2.1) (some files)).actions =
      Action.listBucket :: (sync_files guess c
        (load_manifest c (load_manifest c m0 b0)
          ((sync_files guess c (load_manifest c m0 b0) b0 files).2.1))
        ((sync_files guess c (load_manifest c m0 b0) b0 files).2.1) files).1 := rfl
  have hres : (sync guess c (load_manifest c m0 b0)
      ((sync_files guess c (load_manifest c m0 b0) b0 files).2.1) (some files)).result =
      match (sync_files guess c
        (load_manifest c (load_manifest c m0 b0)
          ((sync_files guess c (load_manifest c m0 b0) b0 files).2.1))
        ((sync_files guess c (load_manifest c m0 b0) b0 files).2.1) files).2.2 with
      | some e => .error e
      | none => .ok none := rfl
  refine ⟨?_, ?_, ?_⟩
  · rw [hact, countUploads_cons_list, hskip.1, countUploads_map_skipped]
  · rw [hact, countSkips_cons_list, hskip.1, countSkips_map_skipped]
  · rw [hres, hskip.2.2]

/-- Witness for C4-amended: one nonempty file, empty initial bucket and
manifest; the second run skips it. -/
theorem sync_idempotent_nonempty_witness :
    countUploads (sync (fun _ => none) 1
      ((sync (fun _ => none) 1 (fun _ => none) (fun _ => none)
          (some [("a.txt", some [104])])).manifest)
      ((sync (fun _ => none) 1 (fun _ => none) (fun _ => none)
          (some [("a.txt", some [104])])).bucket)
      (some [("a.txt", some [104])])).actions = 0 ∧
    countSkips (sync (fun _ => none) 1
      ((sync (fun _ => none) 1 (fun _ => none) (fun _ => none)
          (some [("a.txt", some [104])])).manifest)
      ((sync (fun _ => none) 1 (fun _ => none) (fun _ => none)
          (some [("a.txt", some [104])])).bucket)
      (some [("a.txt", some [104])])).actions = [("a.txt", some ([104] : Bytes))].length ∧
    (sync (fun _ => none) 1
      ((sync (fun _ => none) 1 (fun _ => none) (fun _ => none)
          (some [("a.txt", some [104])])).manifest)
      ((sync (fun _ => none) 1 (fun _ => none) (fun _ => none)
          (some [("a.txt", some [104])])).bucket)
      (some [("a.txt", some [104])])).result = .ok none :=
  sync_idempotent_nonempty (fun _ => none) 1 (fun _ => none) (fun _ => none)
    [("a.txt", some [104])] (by decide) (by decide) (by decide) (by decide)

/-- C4 counterexample: a tree holding one zero-byte file is re-uploaded by the
second sync run — the second run performs one upload, not zero. -/
theorem sync_not_idempotent_empty_cex :
    countUploads (sync (fun _ => none) CHUNK_SIZE
      ((sync (fun _ => none) CHUNK_SIZE (fun _ => none) (fun _ => none)
          (some [("empty.txt", some [])])).manifest)
      ((sync (fun _ => none) CHUNK_SIZE (fun _ => none) (fun _ => none)
          (some [("empty.txt", some [])])).bucket)
      (some [("empty.txt", some [])])).actions = 1 := by
  decide

/-! ### Certificate matching (certificate.py). Python strings are embedded as
character lists. `describe_certificate` is an external API call, so the
matching predicate receives the certificate's subject-alternative names
directly. -/

/-- The loop body of `CertificateManager.cert_matches` for one
subject-alternative name: exact equality with the domain, or a name whose first
character is `*` while the domain ends with the name's remainder. (SAN entries
are nonempty strings, so `name[0]` is the first character.) -/
def san_matches (name domain : List Char) : Bool :=
  name == domain || (name.take 1 == ['*'] && (name.drop 1).isSuffixOf domain)

/-- Embeds `CertificateManager.cert_matches` (certificate.py lines 15-25): true
when any of the certificate's subject-alternative names matches the domain. -/
def cert_matches (altNames : List (List Char)) (domain : List Char) : Bool :=
  altNames.any fun n => san_matches n domain

theorem cert_matches_single (n d : List Char) : cert_matches [n] d = san_matches n d := by
  simp [cert_matches]

/-- C8: a subject-alternative name beginning with `*` matches a domain exactly
when the domain ends with the name's suffix after the `*`; a non-wildcard name
matches only the equal domain; `*.example.com` matches `foo.example.com` but
not `example.com`. -/
theorem cert_matches_rule (name domain : List Char) (hw : name.take 1 = ['*']) :
    (cert_matches [name] domain = true ↔ name.drop 1 <:+ domain) ∧
    (∀ n d : List Char, n.take 1 ≠ ['*'] → (cert_matches [n] d = true ↔ n = d)) ∧
    cert_matches ["*.example.com".data] "foo.example.com".data = true ∧
    cert_matches ["*.example.com".data] "example.com".data = false := by
  refine ⟨?_, ?_, by decide, by decide⟩
  · rw [cert_matches_single]
    unfold san_matches
    rw [hw]
    simp only [Bool.or_eq_true, Bool.and_eq_true, beq_iff_eq,
      List.isSuffixOf_iff_suffix, beq_self_eq_true, true_and]
    constructor
    · rintro (h | h)
      · exact ⟨name.take 1, by rw [List.take_append_drop, h]⟩
      · exact h
    · exact fun h => Or.inr h
  · intro n d hnw
    rw [cert_matches_single]
    unfold san_matches
    have hfalse : (n.take 1 == ['*']) = false := by
      rw [beq_eq_false_iff_ne]
      exact hnw
    simp [hfalse, beq_iff_eq]

/-- Witness for C8: the wildcard SAN matches a subdomain. -/
theorem cert_matches_rule_witness :
    cert_matches ["*.example.com".data] "foo.example.com".data = true :=
  (cert_matches_rule "*.example.com".data "foo.example.com".data (by decide)).2.2.1

/-! ### Hosted-zone creation (domain.py). -/

/-- Python `str.split(sep)` over character lists: splitting the empty string
gives one empty field, and every separator occurrence starts a new field. -/
def pySplit (sep : Char) : List Char → List (List Char)
  | [] => [[]]
  | ch :: cs =>
    match pySplit sep cs with
    | t :: ts => if ch = sep then [] :: t :: ts else (ch :: t) :: ts
    | [] => [[ch]]

/-- Python `sep.join` over character lists. -/
def joinSep (sep : Char) : List (List Char) → List Char
  | [] => []
  | [x] => x
  | x :: xs => x ++ sep :: joinSep sep xs

/-- The request `create_hosted_zone` is invoked with: the zone name and the
caller-reference token. -/
structure HostedZoneRequest where
  name : List Char
  callerReference : String
  deriving DecidableEq

/-- Embeds `DomainManager.created_hosted_zone` (domain.py lines 32-44): the new
zone's name is `'.'.join(domain_name.split('.')[-2:]) + '.'` — the last two
dot-separated labels, joined and with a trailing dot (Python `[-2:]` is
`drop (length - 2)`); the caller reference is the `uuid.uuid4()` token
generated during the call, which enters the model as the argument
`freshUuid`. -/
def created_hosted_zone (domain : List Char) (freshUuid : String) : HostedZoneRequest :=
  let labels := pySplit '.' domain
  { name := joinSep '.' (labels.drop (labels.length - 2)) ++ ['.'],
    callerReference := freshUuid }

/-- C9: for a domain with at least two dot-separated labels, the created zone's
name is the last two labels joined by `.` with a trailing `.` appended —
`www.shop.example.com` gives `example.com.` — and the request carries the fresh
token generated for that call, so calls with distinct tokens send distinct
caller references. -/
theorem created_hosted_zone_rule (domain : List Char) (ls : List (List Char))
    (a b : List Char) (tok : String) (h : pySplit '.' domain = ls ++ [a, b]) :
    (created_hosted_zone domain tok).name = a ++ '.' :: b ++ ['.'] ∧
    (created_hosted_zone domain tok).callerReference = tok ∧
    (∀ t1 t2 : String, t1 ≠ t2 →
      (created_hosted_zone domain t1).callerReference ≠
        (created_hosted_zone domain t2).callerReference) ∧
    (created_hosted_zone "www.shop.example.com".data "uuid-1").name =
      "example.com.".data := by
  refine ⟨?_, rfl, fun t1 t2 h12 => h12, by decide⟩
  have hname : (created_hosted_zone domain tok).name =
      joinSep '.' ((pySplit '.' domain).drop ((pySplit '.' domain).length - 2)) ++ ['.'] := rfl
  rw [hname, h]
  have hlen : (ls ++ [a, b]).length - 2 = ls.length := by simp
  rw [hlen, List.drop_left]
  show (a ++ '.' :: b) ++ ['.'] = a ++ '.' :: b ++ ['.']
  simp [List.append_assoc]

/-- Witness for C9 at the spec's example domain. -/
theorem created_hosted_zone_rule_witness :
    (created_hosted_zone "www.shop.example.com".data "uuid-1").name =
      "example.com.".data :=
  (created_hosted_zone_rule "www.shop.example.com".data
    ["www".data, "shop".data] "example".data "com".data "uuid-1" (by decide)).2.2.2

end Webotron
